import Mathlib

/-!
Shallow embedding of the task-board page of this repository.

The embedded code is the Home component in src/src/app/page.js (the three
useState hooks tasks / newTask / nextId, the hydration useEffect, addTask
and handleDelete) together with the Delete button wiring in
src/src/components/TaskList.js, which calls onDelete with the clicked
task's id.  Persistent storage (the localStorage "tasks" slot, read
through JSON.parse and written through JSON.stringify) is modelled as a
field of the state holding either an absent value, an unparseable value,
or a parsed list of task records.
-/

namespace TaskBoard

/-- A task record as built by addTask in page.js: an object with an integer
id, a title string and a description string. -/
structure Task where
  id : Int
  title : String
  description : String
deriving DecidableEq

/-- Content of the persisted "tasks" slot as seen through JSON.parse in the
hydration effect: the slot can be absent (getItem returns null, so
JSON.parse yields null and the `|| []` fallback applies), it can hold text
that JSON.parse rejects by throwing, or it can hold the serialization of a
list of task records. -/
inductive Stored where
  | absent
  | malformed
  | list (l : List Task)
deriving DecidableEq

/-- State of the Home component: the three useState hooks of page.js
(tasks, newTask, nextId) together with the persisted slot. -/
structure HomeState where
  tasks : List Task
  newTask : String
  nextId : Int
  storage : Stored
deriving DecidableEq

/-- The useState initial values at mount, before the hydration effect runs:
tasks = [], newTask = '', nextId = 1 (page.js lines 51-54), over a given
content of the persisted slot. -/
def mount (st : Stored) : HomeState :=
  { tasks := [], newTask := "", nextId := 1, storage := st }

/-- The reduce in the hydration effect, page.js line 59:
savedTasks.reduce((max, task) => Math.max(max, task.id), 0). -/
def maxId (l : List Task) : Int :=
  l.foldl (fun m t => max m t.id) 0

/-- The read of the persisted slot in the hydration effect, page.js line 57:
JSON.parse(localStorage.getItem('tasks')) || [].  An absent slot parses to
null and falls back to []; an unparseable slot makes JSON.parse throw,
which nothing in the effect catches. -/
def parseStored : Stored → Except Unit (List Task)
  | .absent => .ok []
  | .malformed => .error ()
  | .list l => .ok l

/-- The successful branch of the hydration effect, page.js lines 58-60:
setTasks(savedTasks); setNextId(maxId + 1). -/
def hydrateList (s : HomeState) (savedTasks : List Task) : HomeState :=
  { s with tasks := savedTasks, nextId := maxId savedTasks + 1 }

/-- The hydration useEffect, page.js lines 56-61.  When JSON.parse throws,
the exception propagates out of the effect, so hydration produces an error
instead of a state. -/
def hydrate (s : HomeState) : Except Unit HomeState :=
  match parseStored s.storage with
  | .error e => .error e
  | .ok savedTasks => .ok (hydrateList s savedTasks)

/-- The addTask handler, page.js lines 75-92: builds
newTaskObj = (id = nextId, title = newTask, description = ''), appends it,
clears the input, increments the counter, and writes the updated list to
the persisted slot. -/
def addTask (s : HomeState) : HomeState :=
  let newTaskObj : Task := { id := s.nextId, title := s.newTask, description := "" }
  let updatedTasks := s.tasks ++ [newTaskObj]
  { tasks := updatedTasks, newTask := "", nextId := s.nextId + 1,
    storage := Stored.list updatedTasks }

/-- The AddTask(title) operation of the user interface: the user types
title into the controlled input (setNewTesk, page.js line 134) and clicks
Add (addTask). -/
def addTaskWith (s : HomeState) (title : String) : HomeState :=
  addTask { s with newTask := title }

/-- The callback of tasks.filter((_, i) => i !== index) from page.js
line 95, unfolded: JS Array.filter passes each element's position i to the
callback, counting from the given start. -/
def handleDeleteAux (index : Int) (i : Int) : List Task → List Task
  | [] => []
  | t :: ts =>
      if i ≠ index then t :: handleDeleteAux index (i + 1) ts
      else handleDeleteAux index (i + 1) ts

/-- The list computed by handleDelete, page.js line 95:
tasks.filter((_, i) => i !== index), with positions counted from 0. -/
def handleDeleteList (tasks : List Task) (index : Int) : List Task :=
  handleDeleteAux index 0 tasks

/-- The handleDelete handler, page.js lines 94-98: computes the filtered
list, installs it as the tasks state and writes it to the persisted slot. -/
def handleDelete (s : HomeState) (index : Int) : HomeState :=
  let newTasks := handleDeleteList s.tasks index
  { s with tasks := newTasks, storage := Stored.list newTasks }

/-- The Delete button of TaskList.js (lines 54-59): its onClick calls
onDelete(task.id), i.e. handleDelete with the clicked task's id as the
argument. -/
def clickDelete (s : HomeState) (t : Task) : HomeState :=
  handleDelete s t.id

/-- DeleteTask(id) as worded by the specification: removes the record whose
id field equals the argument.  Stated only for comparison with
handleDeleteList, which is what the code computes. -/
def specDeleteTask (tasks : List Task) (id : Int) : List Task :=
  tasks.filter (fun t => t.id ≠ id)

/-- User-level operations on the page: a hydration from the persisted slot
(run at mount, and again at every reload), an add with a given title, and
an invocation of the delete handler with argument k. -/
inductive Op where
  | hydrate
  | add (title : String)
  | delete (k : Int)
deriving DecidableEq

/-- One user-level operation applied to a state.  Only hydration can fail
(when the persisted slot does not parse). -/
def step (s : HomeState) : Op → Except Unit HomeState
  | .hydrate => hydrate s
  | .add title => .ok (addTaskWith s title)
  | .delete k => .ok (handleDelete s k)

/-- A sequence of user-level operations applied in order; stops with an
error as soon as one operation throws. -/
def run (s : HomeState) : List Op → Except Unit HomeState
  | [] => .ok s
  | op :: ops =>
      match step s op with
      | .error e => .error e
      | .ok s₁ => run s₁ ops

/-- The ids handed out along a sequence of operations: each add assigns the
current counter value to the record it creates.  A sequence that throws
assigns nothing further. -/
def assignedIds (s : HomeState) : List Op → List Int
  | [] => []
  | Op.hydrate :: ops =>
      match hydrate s with
      | .error _ => []
      | .ok s₁ => assignedIds s₁ ops
  | Op.add title :: ops => s.nextId :: assignedIds (addTaskWith s title) ops
  | Op.delete k :: ops => assignedIds (handleDelete s k) ops

/-- Iterated AddTask with a list of titles, in order. -/
def addMany (s : HomeState) : List String → HomeState
  | [] => s
  | title :: titles => addMany (addTaskWith s title) titles

/-- The data-model invariant of the specification: ids are unique within
the current list, and every id in the list is below the counter. -/
def Inv (s : HomeState) : Prop :=
  (s.tasks.map Task.id).Nodup ∧ ∀ t ∈ s.tasks, t.id < s.nextId

instance (s : HomeState) : Decidable (Inv s) := by
  unfold Inv
  infer_instance

/-- A persisted slot is well formed when, if it parses to a list at all,
that list has pairwise distinct ids.  Every slot the code itself writes is
of this shape. -/
def GoodStored : Stored → Prop
  | .list l => (l.map Task.id).Nodup
  | _ => True

instance (st : Stored) : Decidable (GoodStored st) := by
  unfold GoodStored
  cases st <;> infer_instance

/-- The invariant together with well-formedness of the persisted slot. -/
def StrongInv (s : HomeState) : Prop := Inv s ∧ GoodStored s.storage

/-- A state is reachable when some sequence of operations produces it from
a freshly mounted page over a well-formed persisted slot. -/
def Reachable (s : HomeState) : Prop :=
  ∃ st : Stored, GoodStored st ∧ ∃ ops : List Op, run (mount st) ops = Except.ok s

/-! Properties of the filter-by-position in handleDelete. -/

/-- The filtered list is always a sublist of the original. -/
theorem handleDeleteAux_sublist (index i : Int) (l : List Task) :
    (handleDeleteAux index i l).Sublist l := by
  induction l generalizing i with
  | nil => simp [handleDeleteAux]
  | cons t ts ih =>
      rw [handleDeleteAux]
      split
      · exact (ih (i + 1)).cons₂ t
      · exact (ih (i + 1)).cons t

/-- When the target position lies outside the range of positions the
traversal will visit, the filter keeps every element. -/
theorem handleDeleteAux_noop (index i : Int) (l : List Task)
    (h : index < i ∨ i + l.length ≤ index) : handleDeleteAux index i l = l := by
  induction l generalizing i with
  | nil => rfl
  | cons t ts ih =>
      have hne : i ≠ index := by
        simp only [List.length_cons] at h
        omega
      have h₁ : index < i + 1 ∨ (i + 1) + ts.length ≤ index := by
        simp only [List.length_cons] at h
        omega
      rw [handleDeleteAux, if_pos hne, ih (i + 1) h₁]

/-- When the target position is the j-th one the traversal will visit, the
filter drops exactly the element at offset j. -/
theorem handleDeleteAux_eraseIdx (i : Int) (j : Nat) (l : List Task)
    (hj : j < l.length) :
    handleDeleteAux (i + j) i l = l.eraseIdx j := by
  induction l generalizing i j with
  | nil => simp at hj
  | cons t ts ih =>
      cases j with
      | zero =>
          rw [show i + ((0 : Nat) : Int) = i by simp]
          rw [handleDeleteAux, if_neg (by simp)]
          rw [handleDeleteAux_noop i (i + 1) ts (Or.inl (by omega))]
          rfl
      | succ j₁ =>
          have hj₁ : j₁ < ts.length := by
            simp only [List.length_cons] at hj
            omega
          rw [handleDeleteAux, if_pos (show i ≠ i + ((j₁ + 1 : Nat) : Int) by push_cast; omega)]
          rw [show i + ((j₁ + 1 : Nat) : Int) = (i + 1) + (j₁ : Int) by push_cast; ring]
          rw [ih (i + 1) j₁ hj₁]
          rfl

/-- handleDelete's list computation removes exactly the element at
zero-based position k when k is in range. -/
theorem handleDeleteList_eraseIdx (l : List Task) (k : Nat) (hk : k < l.length) :
    handleDeleteList l (k : Int) = l.eraseIdx k := by
  have h := handleDeleteAux_eraseIdx 0 k l hk
  rw [zero_add] at h
  exact h

/-- handleDelete's list computation keeps every element when the argument
is out of range as a position. -/
theorem handleDeleteList_noop (l : List Task) (m : Int)
    (h : m < 0 ∨ (l.length : Int) ≤ m) : handleDeleteList l m = l :=
  handleDeleteAux_noop m 0 l (by omega)

/-! Properties of maxId, the reduce over Math.max with initial value 0. -/

theorem foldl_maxId_le (l : List Task) (a : Int) :
    a ≤ l.foldl (fun m t => max m t.id) a := by
  induction l generalizing a with
  | nil => simp
  | cons t ts ih => exact le_trans (le_max_left a t.id) (ih (max a t.id))

theorem le_foldl_maxId (l : List Task) (a : Int) {t : Task} (ht : t ∈ l) :
    t.id ≤ l.foldl (fun m u => max m u.id) a := by
  induction l generalizing a with
  | nil => cases ht
  | cons u ts ih =>
      cases ht with
      | head => exact le_trans (le_max_right a t.id) (foldl_maxId_le ts _)
      | tail _ h => exact ih _ h

theorem foldl_maxId_cases (l : List Task) (a : Int) :
    l.foldl (fun m t => max m t.id) a = a
      ∨ ∃ t ∈ l, l.foldl (fun m t => max m t.id) a = t.id := by
  induction l generalizing a with
  | nil => exact Or.inl rfl
  | cons u ts ih =>
      simp only [List.foldl_cons]
      rcases ih (max a u.id) with h | ⟨t, ht, he⟩
      · rcases max_choice a u.id with hm | hm
        · exact Or.inl (h.trans hm)
        · exact Or.inr ⟨u, List.mem_cons_self u ts, h.trans hm⟩
      · exact Or.inr ⟨t, List.mem_cons_of_mem u ht, he⟩

theorem maxId_nonneg (l : List Task) : 0 ≤ maxId l :=
  foldl_maxId_le l 0

theorem le_maxId (l : List Task) (t : Task) (ht : t ∈ l) : t.id ≤ maxId l :=
  le_foldl_maxId l 0 ht

theorem maxId_cases (l : List Task) :
    maxId l = 0 ∨ ∃ t ∈ l, maxId l = t.id :=
  foldl_maxId_cases l 0

/-! Preservation of the data-model invariant. -/

theorem Inv_addTaskWith (s : HomeState) (title : String) (hs : Inv s) :
    Inv (addTaskWith s title) := by
  obtain ⟨hnd, hlt⟩ := hs
  constructor
  · have hmap : (addTaskWith s title).tasks.map Task.id
        = s.tasks.map Task.id ++ [s.nextId] := by
      simp [addTaskWith, addTask]
    rw [hmap, List.nodup_append]
    refine ⟨hnd, List.nodup_singleton _, fun a ha hb => ?_⟩
    simp only [List.mem_singleton] at hb
    obtain ⟨t, ht, rfl⟩ := List.mem_map.mp ha
    exact absurd hb (ne_of_lt (hlt t ht))
  · intro t ht
    have hmem : t ∈ s.tasks ++ [({ id := s.nextId, title := title, description := "" } : Task)] := ht
    rcases List.mem_append.mp hmem with h | h
    · show t.id < s.nextId + 1
      exact lt_trans (hlt t h) (lt_add_one _)
    · simp only [List.mem_singleton] at h
      rw [h]
      exact lt_add_one _

theorem Inv_handleDelete (s : HomeState) (k : Int) (hs : Inv s) :
    Inv (handleDelete s k) := by
  obtain ⟨hnd, hlt⟩ := hs
  have hsub : (handleDeleteList s.tasks k).Sublist s.tasks :=
    handleDeleteAux_sublist k 0 s.tasks
  exact ⟨hnd.sublist (hsub.map Task.id), fun t ht => hlt t (hsub.subset ht)⟩

theorem Inv_hydrateList (s : HomeState) (l : List Task)
    (hl : (l.map Task.id).Nodup) : Inv (hydrateList s l) := by
  refine ⟨hl, fun t ht => ?_⟩
  show t.id < maxId l + 1
  exact lt_of_le_of_lt (le_maxId l t ht) (lt_add_one _)

theorem StrongInv_step (s s₁ : HomeState) (op : Op) (h : StrongInv s)
    (hstep : step s op = Except.ok s₁) : StrongInv s₁ := by
  obtain ⟨hi, hg⟩ := h
  cases op with
  | hydrate =>
      cases hst : s.storage with
      | absent =>
          have : s₁ = hydrateList s [] := by
            simp only [step, hydrate, hst, parseStored] at hstep
            exact (Except.ok.inj hstep).symm
          rw [this]
          exact ⟨Inv_hydrateList s [] (by simp), by rw [show (hydrateList s []).storage = s.storage from rfl, hst]; trivial⟩
      | malformed =>
          simp only [step, hydrate, hst, parseStored] at hstep
          exact Except.noConfusion hstep
      | list l =>
          have : s₁ = hydrateList s l := by
            simp only [step, hydrate, hst, parseStored] at hstep
            exact (Except.ok.inj hstep).symm
          have hl : (l.map Task.id).Nodup := by
            rw [hst] at hg
            exact hg
          rw [this]
          exact ⟨Inv_hydrateList s l hl, by rw [show (hydrateList s l).storage = s.storage from rfl, hst]; exact hl⟩
  | add title =>
      have : s₁ = addTaskWith s title := (Except.ok.inj hstep).symm
      rw [this]
      have hinv := Inv_addTaskWith s title hi
      exact ⟨hinv, hinv.1⟩
  | delete k =>
      have : s₁ = handleDelete s k := (Except.ok.inj hstep).symm
      rw [this]
      have hinv := Inv_handleDelete s k hi
      exact ⟨hinv, hinv.1⟩

theorem StrongInv_run (ops : List Op) (s₀ s : HomeState) (h₀ : StrongInv s₀)
    (hrun : run s₀ ops = Except.ok s) : StrongInv s := by
  induction ops generalizing s₀ with
  | nil =>
      simp only [run] at hrun
      rw [← Except.ok.inj hrun]
      exact h₀
  | cons op ops ih =>
      cases hstep : step s₀ op with
      | error e =>
          simp only [run, hstep] at hrun
          exact Except.noConfusion hrun
      | ok s₁ =>
          simp only [run, hstep] at hrun
          exact ih s₁ (StrongInv_step s₀ s₁ op h₀ hstep) hrun

/-- Every state the page can reach from a mount over a well-formed
persisted slot satisfies the data-model invariant of the specification. -/
theorem Reachable_inv (s : HomeState) (h : Reachable s) : Inv s := by
  obtain ⟨st, hst, ops, hrun⟩ := h
  have h₀ : StrongInv (mount st) := by
    refine ⟨⟨by simp [mount], ?_⟩, hst⟩
    intro t ht
    simp [mount] at ht
  exact (StrongInv_run ops (mount st) s h₀ hrun).1

/-! Ids handed out along hydration-free runs. -/

theorem mem_map_add_ne_hydrate (titles : List String) :
    ∀ op ∈ titles.map Op.add, op ≠ Op.hydrate := by
  intro op hop
  obtain ⟨ttl, _, rfl⟩ := List.mem_map.mp hop
  simp

theorem assignedIds_lower (ops : List Op) (s : HomeState)
    (h : ∀ op ∈ ops, op ≠ Op.hydrate) :
    ∀ x ∈ assignedIds s ops, s.nextId ≤ x := by
  induction ops generalizing s with
  | nil => simp [assignedIds]
  | cons op ops ih =>
      have htail : ∀ o ∈ ops, o ≠ Op.hydrate :=
        fun o ho => h o (List.mem_cons_of_mem _ ho)
      cases op with
      | hydrate => exact absurd rfl (h _ (List.mem_cons_self _ _))
      | add title =>
          intro x hx
          simp only [assignedIds] at hx
          rcases List.mem_cons.mp hx with rfl | hx
          · exact le_refl _
          · have hle := ih (addTaskWith s title) htail x hx
            have heq : (addTaskWith s title).nextId = s.nextId + 1 := rfl
            omega
      | delete k =>
          intro x hx
          simp only [assignedIds] at hx
          have hle := ih (handleDelete s k) htail x hx
          have heq : (handleDelete s k).nextId = s.nextId := rfl
          omega

theorem assignedIds_pairwise (ops : List Op) (s : HomeState)
    (h : ∀ op ∈ ops, op ≠ Op.hydrate) :
    (assignedIds s ops).Pairwise (· < ·) := by
  induction ops generalizing s with
  | nil => simp [assignedIds]
  | cons op ops ih =>
      have htail : ∀ o ∈ ops, o ≠ Op.hydrate :=
        fun o ho => h o (List.mem_cons_of_mem _ ho)
      cases op with
      | hydrate => exact absurd rfl (h _ (List.mem_cons_self _ _))
      | add title =>
          simp only [assignedIds]
          refine List.Pairwise.cons ?_ (ih _ htail)
          intro x hx
          have hle := assignedIds_lower ops (addTaskWith s title) htail x hx
          have heq : (addTaskWith s title).nextId = s.nextId + 1 := rfl
          omega
      | delete k =>
          simp only [assignedIds]
          exact ih _ htail

theorem Inv_addMany (titles : List String) (s : HomeState) (hs : Inv s) :
    Inv (addMany s titles) := by
  induction titles generalizing s with
  | nil => exact hs
  | cons t ts ih => exact ih _ (Inv_addTaskWith s t hs)

/-! Claim theorems. -/

/-- C1: evaluation of the code at the failing input.  On the list of two
records with ids 1 and 2, the delete operation called with argument 1 — as
the Delete button does for the task with id 1 — keeps the record with id 1
and removes the record with id 2, because handleDelete filters by position
rather than by id; the claimed result, removal of the record whose id
equals the argument (computed by specDeleteTask), differs. -/
theorem delete_by_id_failing_input :
    handleDeleteList [⟨1, "A", ""⟩, ⟨2, "B", ""⟩] 1 = [⟨1, "A", ""⟩]
  ∧ specDeleteTask [⟨1, "A", ""⟩, ⟨2, "B", ""⟩] 1 = [⟨2, "B", ""⟩]
  ∧ handleDeleteList [⟨1, "A", ""⟩, ⟨2, "B", ""⟩] 1 ≠ [⟨2, "B", ""⟩]
  ∧ (clickDelete { tasks := [⟨1, "A", ""⟩, ⟨2, "B", ""⟩], newTask := "", nextId := 3,
                   storage := Stored.list [⟨1, "A", ""⟩, ⟨2, "B", ""⟩] } ⟨1, "A", ""⟩).tasks
      = [⟨1, "A", ""⟩] :=
  ⟨by decide, by decide, by decide, by decide⟩

/-- C2: the delete handler acts purely by position: for an in-range
argument k it removes the element at zero-based index k whatever its id
is; the Delete button passes the clicked task's id as that argument, so a
click removes the record at index equal to the task's id (when that index
is in range), and removes nothing when the index is out of range. -/
theorem delete_removes_by_position (l : List Task) (k : Nat) (hk : k < l.length) :
    handleDeleteList l (k : Int) = l.eraseIdx k
  ∧ (∀ s : HomeState, ∀ t : Task, clickDelete s t = handleDelete s t.id)
  ∧ (∀ s : HomeState, ∀ t : Task, 0 ≤ t.id → t.id.toNat < s.tasks.length →
       (clickDelete s t).tasks = s.tasks.eraseIdx t.id.toNat)
  ∧ (∀ m : Int, (m < 0 ∨ (l.length : Int) ≤ m) → handleDeleteList l m = l) := by
  refine ⟨handleDeleteList_eraseIdx l k hk, fun s t => rfl, ?_,
          fun m hm => handleDeleteList_noop l m hm⟩
  intro s t h₀ hlen
  have h := handleDeleteList_eraseIdx s.tasks t.id.toNat hlen
  rw [Int.toNat_of_nonneg h₀] at h
  exact h

/-- C2 witness: the theorem applied to the two-element list at position 1. -/
theorem delete_removes_by_position_witness :
    handleDeleteList [⟨1, "A", ""⟩, ⟨2, "B", ""⟩] ((1 : Nat) : Int)
        = [⟨1, "A", ""⟩, ⟨2, "B", ""⟩].eraseIdx 1
  ∧ (∀ s : HomeState, ∀ t : Task, clickDelete s t = handleDelete s t.id)
  ∧ (∀ s : HomeState, ∀ t : Task, 0 ≤ t.id → t.id.toNat < s.tasks.length →
       (clickDelete s t).tasks = s.tasks.eraseIdx t.id.toNat)
  ∧ (∀ m : Int, (m < 0 ∨ (([⟨1, "A", ""⟩, ⟨2, "B", ""⟩] : List Task).length : Int) ≤ m) →
       handleDeleteList [⟨1, "A", ""⟩, ⟨2, "B", ""⟩] m = [⟨1, "A", ""⟩, ⟨2, "B", ""⟩]) :=
  delete_removes_by_position [⟨1, "A", ""⟩, ⟨2, "B", ""⟩] 1 (by decide)

/-- C3: evaluation of the code at the failing input.  On the list of three
records with ids 1, 2, 3, the delete operation with argument 1 removes the
record with id 2; applying it again with the same argument removes the
record with id 3, which has moved to index 1, so the second application
does change the list and the operation is not idempotent. -/
theorem delete_twice_failing_input :
    handleDeleteList [⟨1, "A", ""⟩, ⟨2, "B", ""⟩, ⟨3, "C", ""⟩] 1
        = [⟨1, "A", ""⟩, ⟨3, "C", ""⟩]
  ∧ handleDeleteList (handleDeleteList [⟨1, "A", ""⟩, ⟨2, "B", ""⟩, ⟨3, "C", ""⟩] 1) 1
        = [⟨1, "A", ""⟩]
  ∧ handleDeleteList (handleDeleteList [⟨1, "A", ""⟩, ⟨2, "B", ""⟩, ⟨3, "C", ""⟩] 1) 1
        ≠ handleDeleteList [⟨1, "A", ""⟩, ⟨2, "B", ""⟩, ⟨3, "C", ""⟩] 1 :=
  ⟨by decide, by decide, by decide⟩

/-- C4 counterexample: hydrating over a persisted value that JSON.parse
cannot parse does not silently install the empty list with counter 1 — the
parse exception propagates out of the effect. -/
theorem hydrate_malformed_throws :
    hydrate (mount Stored.malformed) = Except.error ()
  ∧ hydrate (mount Stored.malformed)
      ≠ Except.ok { mount Stored.malformed with tasks := [], nextId := 1 } :=
  ⟨rfl, fun h => Except.noConfusion h⟩

/-- C4 amended: hydration silently installs the empty list and counter 1
when the persisted value is missing; a persisted value that cannot be
parsed makes hydration throw instead of recovering. -/
theorem hydrate_missing_or_malformed (ts : List Task) (nt : String) (c : Int) :
    hydrate { tasks := ts, newTask := nt, nextId := c, storage := Stored.absent }
      = Except.ok { tasks := [], newTask := nt, nextId := 1, storage := Stored.absent }
  ∧ hydrate { tasks := ts, newTask := nt, nextId := c, storage := Stored.malformed }
      = Except.error () :=
  ⟨rfl, rfl⟩

/-- C5 counterexample: the run that mounts over an empty slot, adds tasks
A (id 1) and B (id 2), deletes with argument 1 — which removes the record
with id 2 — then hydrates again (a reload) and adds C, assigns the id
sequence 1, 2, 2: id 2 is assigned a second time after the record carrying
it was deleted, because rehydration re-seeds the counter from the
surviving maximum id. -/
theorem id_reuse_after_rehydration :
    assignedIds (mount Stored.absent)
        [Op.hydrate, Op.add "A", Op.add "B", Op.delete 1, Op.hydrate, Op.add "C"]
      = [1, 2, 2]
  ∧ ¬ (assignedIds (mount Stored.absent)
        [Op.hydrate, Op.add "A", Op.add "B", Op.delete 1, Op.hydrate, Op.add "C"]).Nodup :=
  ⟨by decide, by decide⟩

/-- C5 amended: along any sequence of add and delete operations that
contains no hydration, the assigned ids are strictly increasing — so an id
once assigned is never assigned again within a session — and, from a state
satisfying the data-model invariant, every id already in the list
(including ids of records deleted later in the sequence) stays strictly
below every id assigned in the sequence.  The never-reused guarantee does
not survive a re-hydration, as the counterexample shows. -/
theorem no_id_reuse_without_rehydration (s : HomeState) (ops : List Op)
    (hi : Inv s) (hops : ∀ op ∈ ops, op ≠ Op.hydrate) :
    (assignedIds s ops).Pairwise (· < ·)
  ∧ ∀ t ∈ s.tasks, ∀ x ∈ assignedIds s ops, t.id < x := by
  refine ⟨assignedIds_pairwise ops s hops, fun t ht x hx => ?_⟩
  have hlow := assignedIds_lower ops s hops x hx
  have hid := hi.2 t ht
  omega

/-- C5 witness: the amended theorem applied to a mounted page and a
hydration-free sequence of operations. -/
theorem no_id_reuse_without_rehydration_witness :
    (assignedIds (mount Stored.absent) [Op.add "A", Op.delete 0, Op.add "B"]).Pairwise (· < ·)
  ∧ ∀ t ∈ (mount Stored.absent).tasks,
      ∀ x ∈ assignedIds (mount Stored.absent) [Op.add "A", Op.delete 0, Op.add "B"], t.id < x :=
  no_id_reuse_without_rehydration (mount Stored.absent) [Op.add "A", Op.delete 0, Op.add "B"]
    (by decide) (by decide)

/-- C6: from any state satisfying the data-model invariant — which every
reachable state does, by Reachable_inv — any sequence of AddTask calls
assigns strictly increasing ids in creation order, leaves a list whose ids
are pairwise distinct, and at each step creates its record with id equal
to the current counter, strictly greater than every id already in the
list (the third conjunct, since the record created after the prefix p is
given id (addMany s p).nextId). -/
theorem addTask_ids_strictly_increasing (s : HomeState) (hs : Inv s) (titles : List String) :
    (assignedIds s (titles.map Op.add)).Pairwise (· < ·)
  ∧ ((addMany s titles).tasks.map Task.id).Nodup
  ∧ ∀ p rest, titles = p ++ rest →
      ∀ t ∈ (addMany s p).tasks, t.id < (addMany s p).nextId := by
  refine ⟨assignedIds_pairwise _ s (mem_map_add_ne_hydrate titles),
          (Inv_addMany titles s hs).1, ?_⟩
  rintro p rest rfl t ht
  exact (Inv_addMany p s hs).2 t ht

/-- C6 witness: the theorem applied to a freshly mounted page and two
AddTask calls. -/
theorem addTask_ids_strictly_increasing_witness :
    (assignedIds (mount Stored.absent) (["A", "B"].map Op.add)).Pairwise (· < ·)
  ∧ ((addMany (mount Stored.absent) ["A", "B"]).tasks.map Task.id).Nodup
  ∧ ∀ p rest, ["A", "B"] = p ++ rest →
      ∀ t ∈ (addMany (mount Stored.absent) p).tasks,
        t.id < (addMany (mount Stored.absent) p).nextId :=
  addTask_ids_strictly_increasing (mount Stored.absent) (by decide) ["A", "B"]

/-- C7: AddTask appends the record built from the current counter and the
pending input with empty description, increments the counter, writes the
full updated list to the persisted slot, and clears the pending input; in
particular, on a freshly mounted page AddTask("Buy milk") produces the
singleton list with id 1 and counter 2. -/
theorem addTask_effect (s : HomeState) :
    (addTask s).tasks = s.tasks ++ [{ id := s.nextId, title := s.newTask, description := "" }]
  ∧ (addTask s).nextId = s.nextId + 1
  ∧ (addTask s).storage = Stored.list ((addTask s).tasks)
  ∧ (addTask s).newTask = ""
  ∧ addTaskWith (mount Stored.absent) "Buy milk"
      = { tasks := [{ id := 1, title := "Buy milk", description := "" }], newTask := "",
          nextId := 2,
          storage := Stored.list [{ id := 1, title := "Buy milk", description := "" }] } :=
  ⟨rfl, rfl, rfl, rfl, rfl⟩

/-- C8: hydrating over a persisted slot holding a parsed list installs
that list as the current state and sets the counter to maxId + 1, where
maxId is an upper bound of the ids, is nonnegative, and is either 0 or
attained by some record — i.e. the counter is 1 + max(ids, default 0); in
particular a persisted list with ids 3 and 7 yields counter 8. -/
theorem hydrate_parsed_list_effect (ts : List Task) (nt : String) (c : Int) (l : List Task) :
    hydrate { tasks := ts, newTask := nt, nextId := c, storage := Stored.list l }
      = Except.ok { tasks := l, newTask := nt, nextId := maxId l + 1,
                    storage := Stored.list l }
  ∧ 0 ≤ maxId l
  ∧ (∀ t ∈ l, t.id ≤ maxId l)
  ∧ (maxId l = 0 ∨ ∃ t ∈ l, maxId l = t.id)
  ∧ hydrate (mount (Stored.list [⟨3, "a", ""⟩, ⟨7, "b", ""⟩]))
      = Except.ok { tasks := [⟨3, "a", ""⟩, ⟨7, "b", ""⟩], newTask := "", nextId := 8,
                    storage := Stored.list [⟨3, "a", ""⟩, ⟨7, "b", ""⟩] } :=
  ⟨rfl, maxId_nonneg l, fun t ht => le_maxId l t ht, maxId_cases l, rfl⟩

/-- C9: the delete handler writes the resulting list to the persisted slot
unconditionally: after any delete the slot holds exactly the resulting
list, and in particular a delete that removes nothing (argument 0 on the
empty list of a freshly mounted page) still overwrites the slot. -/
theorem delete_persists_unconditionally (s : HomeState) (k : Int) :
    (handleDelete s k).storage = Stored.list ((handleDelete s k).tasks)
  ∧ handleDelete (mount Stored.absent) 0
      = { tasks := [], newTask := "", nextId := 1, storage := Stored.list [] } :=
  ⟨rfl, rfl⟩

/-- C10: the delete handler never modifies the next-id counter, and from a
state satisfying the data-model invariant, every id present before the
delete — including the id of whichever record was deleted — stays strictly
below every id a subsequent sequence of AddTask calls assigns, so deleted
ids are not handed out again within the session. -/
theorem delete_preserves_counter (s : HomeState) (k : Int) (hs : Inv s) :
    (handleDelete s k).nextId = s.nextId
  ∧ ∀ titles : List String, ∀ t ∈ s.tasks,
      ∀ x ∈ assignedIds (handleDelete s k) (titles.map Op.add), t.id < x := by
  refine ⟨rfl, fun titles t ht x hx => ?_⟩
  have hlow := assignedIds_lower _ (handleDelete s k)
    (mem_map_add_ne_hydrate titles) x hx
  have heq : (handleDelete s k).nextId = s.nextId := rfl
  have hid := hs.2 t ht
  omega

/-- C10 witness: the theorem applied to a one-task state and argument 0. -/
theorem delete_preserves_counter_witness :
    (handleDelete { tasks := [⟨1, "A", ""⟩], newTask := "", nextId := 2,
                    storage := Stored.list [⟨1, "A", ""⟩] } 0).nextId
      = ({ tasks := [⟨1, "A", ""⟩], newTask := "", nextId := 2,
           storage := Stored.list [⟨1, "A", ""⟩] } : HomeState).nextId
  ∧ ∀ titles : List String,
      ∀ t ∈ ({ tasks := [⟨1, "A", ""⟩], newTask := "", nextId := 2,
               storage := Stored.list [⟨1, "A", ""⟩] } : HomeState).tasks,
      ∀ x ∈ assignedIds
          (handleDelete { tasks := [⟨1, "A", ""⟩], newTask := "", nextId := 2,
                          storage := Stored.list [⟨1, "A", ""⟩] } 0)
          (titles.map Op.add), t.id < x :=
  delete_preserves_counter
    { tasks := [⟨1, "A", ""⟩], newTask := "", nextId := 2,
      storage := Stored.list [⟨1, "A", ""⟩] } 0 (by decide)

end TaskBoard
